import Mathlib

/-!
Shallow embedding of the versioned cache subsystem of `pbi_cli`
(`src/pbi_cli/cache.py`): `CacheConfig`, and the operations of
`CacheManager` (`_get_cache_path`, `save`, `load`, `list_versions`,
`list_keys`, `clear`) over an explicit filesystem state.

Paths are lists of segments.  The filesystem is a pair of a file map
(path to file content) and a list of explicitly created directories; a
directory also exists implicitly when some file or directory lives
strictly below it, mirroring a real tree.  The clock (`datetime.now`)
is passed explicitly: `verTs` is the value of the first
`_get_version_timestamp()` call in a `save` (made inside
`_get_cache_path` because `save` passes `create_version=True`),
`verTs2` the value of the second call (made only in the
`default_versioning=False` branch of `save`), and `isoNow` the value of
`datetime.now().isoformat()` used for `cached_at`.
-/

namespace PbiCache

/-- JSON values (the payloads the cache stores). -/
inductive Json where
  | null : Json
  | bool : Bool → Json
  | num : Int → Json
  | str : String → Json
  | arr : List Json → Json
  | obj : List (String × Json) → Json

/-- A Python value handed to `save`: either JSON-serializable or not
(e.g. a `set` or a custom object, on which `json.dump` raises
`TypeError`). -/
inductive PyVal where
  | json : Json → PyVal
  | notSerializable : PyVal

/-- A filesystem path, as a list of segments. -/
abbrev Path := List String

/-- Content of a file: a well-formed JSON document, or garbage
(e.g. the truncated output left behind when `json.dump` raises midway
through an incremental write). -/
inductive FileContent where
  | jsonFile : Json → FileContent
  | corrupt : FileContent

/-- Test that holds when, for `ancestorOf p q`, `p` is a proper ancestor directory of
`q` (a strict leading sublist of its segments). -/
def ancestorOf : Path → Path → Bool
  | [], [] => false
  | [], _ :: _ => true
  | _ :: _, [] => false
  | a :: as, b :: bs => a == b && ancestorOf as bs

/-- Filesystem state: files with their contents, plus explicitly
created (possibly empty) directories. -/
structure FS where
  files : List (Path × FileContent)
  dirs : List Path

namespace FS

/-- Content of the file at `p`, if a file exists there. -/
def readFile? (fs : FS) (p : Path) : Option FileContent :=
  fs.files.lookup p

/-- Does a file exist at `p`? -/
def fileExists (fs : FS) (p : Path) : Bool :=
  (fs.readFile? p).isSome

/-- Does a directory exist at `p` (created explicitly, or implied by
an entry strictly below it)? -/
def dirExists (fs : FS) (p : Path) : Bool :=
  fs.dirs.any (fun d => d == p || ancestorOf p d)
    || fs.files.any (fun e => ancestorOf p e.1)

/-- Model of `Path.exists()`: a file or a directory is at `p`. -/
def pathExists (fs : FS) (p : Path) : Bool :=
  fs.fileExists p || fs.dirExists p

/-- Model of `mkdir(parents=True, exist_ok=True)`: record the directory (its
ancestors are implied). -/
def mkdirP (fs : FS) (p : Path) : FS :=
  { fs with dirs := p :: fs.dirs }

/-- Write (create or overwrite) the file at `p`. -/
def writeFile (fs : FS) (p : Path) (c : FileContent) : FS :=
  { fs with files := (p, c) :: fs.files.filter (fun e => !(e.1 == p)) }

/-- Model of `unlink()`: remove the file at `p` (no effect on directories). -/
def removeFile (fs : FS) (p : Path) : FS :=
  { fs with files := fs.files.filter (fun e => !(e.1 == p)) }

/-- Model of `shutil.rmtree` / `CloudPath.rmtree`: remove `p` and everything
below it. -/
def removeTree (fs : FS) (p : Path) : FS :=
  { files := fs.files.filter (fun e => !(e.1 == p || ancestorOf p e.1)),
    dirs := fs.dirs.filter (fun d => !(d == p || ancestorOf p d)) }

end FS

/-- First occurrence of each name, skipping those already `seen`. -/
def dedupFrom : List String → List String → List String
  | _, [] => []
  | seen, x :: xs =>
    if seen.contains x then dedupFrom seen xs
    else x :: dedupFrom (x :: seen) xs

/-- Remove duplicates, keeping first occurrences.  `iterdir` yields
each directory entry once; the model's candidate list may repeat a
name, so it is deduplicated. -/
def dedup (l : List String) : List String := dedupFrom [] l

/-- The child-directory name `r` contributes under `d`, when `r` is a
directory entry below `d`. -/
def childNameOfDir (d : Path) (r : Path) : Option String :=
  if ancestorOf d r then (r.drop d.length).head? else none

/-- The child-directory name a file at `r` implies under `d` (the file
must sit at least two levels below `d`). -/
def childNameOfFile (d : Path) (r : Path) : Option String :=
  if ancestorOf d r then
    match r.drop d.length with
    | x :: _ :: _ => some x
    | _ => none
  else none

/-- Names of the immediate subdirectories of `d`
(`[x.name for x in d.iterdir() if x.is_dir()]`). -/
def childDirNames (fs : FS) (d : Path) : List String :=
  dedup (fs.dirs.filterMap (childNameOfDir d)
    ++ fs.files.filterMap (fun e => childNameOfFile d e.1))

/-- Python's `<` on sequences: lexicographic, first difference decides,
a strict leading part is smaller. -/
def lexLt : List Char → List Char → Bool
  | _, [] => false
  | [], _ :: _ => true
  | a :: as, b :: bs =>
    if a < b then true else if b < a then false else lexLt as bs

/-- Python's `<` on strings: lexicographic comparison of code points
(proved below to agree with Lean's `String` order). -/
def strLt (a b : String) : Bool := lexLt a.data b.data

/-- Insert into a descending-sorted list of strings. -/
def insertDesc (x : String) : List String → List String
  | [] => [x]
  | y :: ys => if strLt y x then x :: y :: ys else y :: insertDesc x ys

/-- Model of `sorted(l, reverse=True)`: sort descending by string order. -/
def sortDesc : List String → List String
  | [] => []
  | x :: xs => insertDesc x (sortDesc xs)

/-- Insert into an ascending-sorted list of strings. -/
def insertAsc (x : String) : List String → List String
  | [] => [x]
  | y :: ys => if strLt x y then x :: y :: ys else y :: insertAsc x ys

/-- Model of `sorted(l)`: sort ascending by string order. -/
def sortAsc : List String → List String
  | [] => []
  | x :: xs => insertAsc x (sortAsc xs)

/-- Configuration `CacheConfig`: cache folder (as path segments, `none` when
unconfigured), master switch, and default versioning flag. -/
structure CacheConfig where
  cache_folder : Option Path
  enabled : Bool := true
  default_versioning : Bool := true

/-- The explicit clock: results of the successive `datetime.now`-based
calls a single `save` (or `load`/`clear`) can make. -/
structure Clock where
  verTs : String
  verTs2 : String
  isoNow : String

/-- Field lookup in a JSON object (`cache_data["k"]`). -/
def Json.getField : Json → String → Option Json
  | .obj kvs, k => kvs.lookup k
  | _, _ => none

/-- Model of `CacheManager._get_cache_path`.  `genTs` is the timestamp
`_get_version_timestamp()` would return if called here.  Returns
`none` when the cache folder is unconfigured.  Note the source's
`if version:` is Python truthiness: `None` and `""` both select the
non-versioned path. -/
def getCachePath (cfg : CacheConfig) (cache_key : String)
    (version : Option String) (create_version : Bool) (genTs : String) :
    Option Path :=
  match cfg.cache_folder with
  | none => none
  | some base =>
    let version :=
      if create_version || (version.isNone && cfg.default_versioning) then
        some genTs
      else version
    match version with
    | some v =>
      if v = "" then some (base ++ [cache_key ++ ".json"])
      else some (base ++ [cache_key, v, cache_key ++ ".json"])
    | none => some (base ++ [cache_key ++ ".json"])

/-- Model of `cache_path.parent.name`. -/
def parentName (p : Path) : String :=
  p.dropLast.getLastD ""

/-- The envelope dictionary `save` writes:
`{cache_key, cached_at, version, metadata, data}`. -/
def envelopeJson (cache_key cached_at used_version : String)
    (metadata : List (String × Json)) (data : Json) : Json :=
  .obj [("cache_key", .str cache_key),
        ("cached_at", .str cached_at),
        ("version", .str used_version),
        ("metadata", .obj metadata),
        ("data", data)]

/-- The `try:` block of `CacheManager.save`.  An `Except.error` is an
exception escaping the block; it carries the filesystem as already
mutated (`_ensure_cache_dir` ran, and `json.dump` truncated and
partially wrote the opened file before raising). -/
def saveBody (cfg : CacheConfig) (fs : FS) (cache_key : String)
    (data : PyVal) (version : Option String)
    (metadata : Option (List (String × Json))) (clk : Clock) :
    Except (String × FS) (Option String × FS) :=
  match getCachePath cfg cache_key version true clk.verTs with
  | none => .ok (none, fs)
  | some cache_path =>
    let used_version :=
      if cfg.default_versioning then parentName cache_path else clk.verTs2
    let fs1 := fs.mkdirP cache_path.dropLast
    match data with
    | .json j =>
      let env := envelopeJson cache_key clk.isoNow used_version
        (metadata.getD []) j
      .ok (some used_version, fs1.writeFile cache_path (.jsonFile env))
    | .notSerializable =>
      .error ("TypeError: not JSON serializable",
        fs1.writeFile cache_path .corrupt)

/-- Model of `CacheManager.save`: the guard on `enabled`/configuration, the
`try:` body, and the `except` handler that logs and returns `None`. -/
def save (cfg : CacheConfig) (fs : FS) (cache_key : String)
    (data : PyVal) (version : Option String)
    (metadata : Option (List (String × Json))) (clk : Clock) :
    Option String × FS :=
  if !cfg.enabled || cfg.cache_folder.isNone then (none, fs)
  else
    match saveBody cfg fs cache_key data version metadata clk with
    | .ok r => r
    | .error (_, fs2) => (none, fs2)

/-- Model of `CacheManager.list_versions`: subdirectories of the key's
directory that contain `<cache_key>.json`, sorted descending.  Does
not consult `enabled`. -/
def listVersions (cfg : CacheConfig) (fs : FS) (cache_key : String) :
    List String :=
  match cfg.cache_folder with
  | none => []
  | some base =>
    let cache_dir := base ++ [cache_key]
    if !fs.pathExists cache_dir then []
    else
      sortDesc ((childDirNames fs cache_dir).filter
        (fun name =>
          fs.fileExists (cache_dir ++ [name, cache_key ++ ".json"])))

/-- Body of `CacheManager.load` after the `"latest"` resolution:
resolve the path, check existence, read the file; a missing file, a
directory in the way, or corrupt JSON all yield `None` (the
exceptions are caught by `load`'s `except` clause). -/
def loadAt (cfg : CacheConfig) (fs : FS) (cache_key : String)
    (version : Option String) (nowTs : String) : Option Json :=
  match getCachePath cfg cache_key version false nowTs with
  | none => none
  | some cache_path =>
    match fs.readFile? cache_path with
    | some (.jsonFile j) => some j
    | some .corrupt => none
    | none => none

/-- Model of `CacheManager.load`.  `nowTs` is the timestamp
`_get_version_timestamp()` would return if `_get_cache_path` calls it
(it does when `version is None` and `default_versioning` is on).
When `version == "latest"`, the code reassigns `version` to the head
of `list_versions` and returns `None` when there are no versions. -/
def load (cfg : CacheConfig) (fs : FS) (cache_key : String)
    (version : Option String) (nowTs : String) : Option Json :=
  if !cfg.enabled || cfg.cache_folder.isNone then none
  else if version = some "latest" then
    match listVersions cfg fs cache_key with
    | [] => none
    | v :: _ => loadAt cfg fs cache_key (some v) nowTs
  else loadAt cfg fs cache_key version nowTs

/-- Model of `CacheManager.list_keys`: top-level subdirectories with at least
one valid version, sorted ascending.  Does not consult `enabled`. -/
def listKeys (cfg : CacheConfig) (fs : FS) : List String :=
  match cfg.cache_folder with
  | none => []
  | some base =>
    if !fs.pathExists base then []
    else
      sortAsc ((childDirNames fs base).filter
        (fun name => !(listVersions cfg fs name).isEmpty))

/-- Model of `CacheManager.clear`.  Does not consult `enabled`. -/
def clear (cfg : CacheConfig) (fs : FS) (cache_key : Option String)
    (version : Option String) (nowTs : String) : FS :=
  match cfg.cache_folder with
  | none => fs
  | some base =>
    match cache_key with
    | none =>
      if fs.pathExists base then (fs.removeTree base).mkdirP base else fs
    | some key =>
      match version with
      | none =>
        let cache_dir := base ++ [key]
        if fs.pathExists cache_dir then fs.removeTree cache_dir else fs
      | some v =>
        match getCachePath cfg key (some v) false nowTs with
        | none => fs
        | some cache_path =>
          if fs.pathExists cache_path then fs.removeFile cache_path else fs

/-- Is an `Except` result an escaped exception? -/
def isErr : Except (String × FS) (Option String × FS) → Bool
  | .error _ => true
  | .ok _ => false

/-! Concrete states used to instantiate the theorems. -/

/-- A concrete cache folder. -/
def baseW : Path := ["cache"]

/-- Configured, enabled, default versioning on. -/
def cfgW : CacheConfig := { cache_folder := some baseW }

/-- Configured, enabled, default versioning off (non-versioned mode). -/
def cfgNV : CacheConfig :=
  { cache_folder := some baseW, default_versioning := false }

/-- Configured but disabled. -/
def cfgOff : CacheConfig := { cache_folder := some baseW, enabled := false }

/-- The empty filesystem. -/
def fs0 : FS := ⟨[], []⟩

/-- A first clock reading. -/
def clkA : Clock :=
  ⟨"20240101_000001", "20240101_000001", "2024-01-01T00:00:01"⟩

/-- A later clock reading. -/
def clkB : Clock :=
  ⟨"20240101_000002", "20240101_000002", "2024-01-01T00:00:02"⟩

/-- A sample payload. -/
def dat1 : Json := .num 1

/-- Another sample payload. -/
def dat2 : Json := .num 2

/-- A sample stored envelope. -/
def envW : Json := envelopeJson "k" "2024-01-01T00:00:00" "v1" [] dat1

/-- A filesystem holding one versioned entry `v1` for key `k`. -/
def fsK : FS :=
  ⟨[(["cache", "k", "v1", "k.json"], .jsonFile envW)], [["cache", "k", "v1"]]⟩

/-- A filesystem holding only the non-versioned file for key `k`. -/
def fsNonV : FS := ⟨[(["cache", "k.json"], .jsonFile envW)], [["cache"]]⟩

/-! Order lemmas: `strLt` is Python's string `<`, and it agrees with
Lean's `String` order, so the `LinearOrder String` theory applies to
the sort used by `list_versions` / `list_keys`. -/

theorem lexLt_iff : ∀ as bs : List Char, lexLt as bs = true ↔ as < bs := by
  intro as
  induction as with
  | nil =>
    intro bs
    cases bs with
    | nil =>
      simp only [lexLt, Bool.false_eq_true, false_iff]
      intro h
      cases h
    | cons b bs =>
      simp only [lexLt, true_iff]
      exact List.Lex.nil
  | cons a as ih =>
    intro bs
    cases bs with
    | nil =>
      simp only [lexLt, Bool.false_eq_true, false_iff]
      intro h
      cases h
    | cons b bs =>
      simp only [lexLt]
      rcases lt_trichotomy a b with hab | heq | hba
      · simp only [if_pos hab, true_iff]
        exact List.Lex.rel hab
      · subst heq
        rw [if_neg (lt_irrefl a), if_neg (lt_irrefl a), ih bs]
        constructor
        · exact List.Lex.cons
        · intro h
          cases h with
          | rel h => exact absurd h (lt_irrefl a)
          | cons h => exact h
      · have hab : ¬ a < b := not_lt_of_gt hba
        simp only [if_neg hab, if_pos hba, Bool.false_eq_true, false_iff]
        intro h
        cases h with
        | rel h => exact hab h
        | cons h => exact absurd hba (lt_irrefl a)

theorem strLt_iff (a b : String) : strLt a b = true ↔ a < b := by
  rw [String.lt_iff_toList_lt]
  exact lexLt_iff a.data b.data

theorem strLt_false_iff (a b : String) : strLt a b = false ↔ b ≤ a := by
  rw [← Bool.not_eq_true, strLt_iff, not_lt]

theorem mem_insertDesc (a x : String) :
    ∀ l : List String, a ∈ insertDesc x l ↔ a = x ∨ a ∈ l := by
  intro l
  induction l with
  | nil => simp [insertDesc]
  | cons y ys ih =>
    simp only [insertDesc]
    by_cases h : strLt y x
    · simp [h]
    · simp only [h, Bool.false_eq_true, if_false, List.mem_cons, ih]
      tauto

theorem mem_sortDesc (a : String) :
    ∀ l : List String, a ∈ sortDesc l ↔ a ∈ l := by
  intro l
  induction l with
  | nil => simp [sortDesc]
  | cons y ys ih => simp [sortDesc, mem_insertDesc, ih]

theorem head_insertDesc (x : String) (l : List String) :
    (insertDesc x l).head? = some x ∨ (insertDesc x l).head? = l.head? := by
  cases l with
  | nil => simp [insertDesc]
  | cons y ys =>
    simp only [insertDesc]
    by_cases h : strLt y x
    · simp [h]
    · simp [h]

theorem chain_insertDesc (x : String) :
    ∀ l : List String, List.Chain' (. ≥ .) l →
      List.Chain' (. ≥ .) (insertDesc x l) := by
  intro l
  induction l with
  | nil =>
    intro _
    simp [insertDesc]
  | cons y ys ih =>
    intro hl
    rw [List.chain'_cons'] at hl
    simp only [insertDesc]
    by_cases h : strLt y x
    · simp only [h, if_true]
      rw [List.chain'_cons']
      refine ⟨?_, List.chain'_cons'.mpr hl⟩
      intro b hb
      simp only [List.head?_cons, Option.mem_def, Option.some.injEq] at hb
      subst hb
      exact le_of_lt ((strLt_iff y x).mp h)
    · simp only [h, Bool.false_eq_true, if_false]
      rw [List.chain'_cons']
      refine ⟨?_, ih hl.2⟩
      intro b hb
      rcases head_insertDesc x ys with hh | hh
      · rw [hh] at hb
        simp only [Option.mem_def, Option.some.injEq] at hb
        subst hb
        exact (strLt_false_iff y x).mp (Bool.not_eq_true _ ▸ h)
      · rw [hh] at hb
        exact hl.1 b hb

theorem chain_sortDesc :
    ∀ l : List String, List.Chain' (. ≥ .) (sortDesc l) := by
  intro l
  induction l with
  | nil => simp [sortDesc]
  | cons y ys ih => exact chain_insertDesc y (sortDesc ys) ih

theorem head_ge_of_chain (hd : String) (tl : List String) (x : String)
    (hc : List.Chain' (. ≥ .) (hd :: tl)) (hx : x ∈ hd :: tl) : x ≤ hd := by
  rcases List.mem_cons.mp hx with h | h
  · exact le_of_eq h
  · rw [List.chain'_cons'] at hc
    have hp := List.chain'_iff_pairwise.mp (List.chain'_cons'.mpr hc)
    exact (List.pairwise_cons.mp hp).1 x h

theorem nodup_insertDesc (x : String) :
    ∀ l : List String, x ∉ l → l.Nodup → (insertDesc x l).Nodup := by
  intro l
  induction l with
  | nil =>
    intro _ _
    simp [insertDesc]
  | cons y ys ih =>
    intro hx hl
    simp only [List.mem_cons, not_or] at hx
    simp only [insertDesc]
    by_cases h : strLt y x
    · rw [if_pos h, List.nodup_cons]
      exact ⟨fun hc => (List.mem_cons.mp hc).elim (fun e => hx.1 e)
        (fun e => hx.2 e), hl⟩
    · simp only [h, Bool.false_eq_true, if_false, List.nodup_cons, mem_insertDesc]
      rw [List.nodup_cons] at hl
      exact ⟨fun hc => hc.elim (fun e => hx.1 e.symm) (fun e => hl.1 e),
        ih hx.2 hl.2⟩

theorem nodup_sortDesc :
    ∀ l : List String, l.Nodup → (sortDesc l).Nodup := by
  intro l
  induction l with
  | nil =>
    intro _
    simp [sortDesc]
  | cons y ys ih =>
    intro hl
    rw [List.nodup_cons] at hl
    exact nodup_insertDesc y (sortDesc ys)
      (fun hc => hl.1 ((mem_sortDesc y ys).mp hc)) (ih hl.2)

theorem mem_dedupFrom (a : String) :
    ∀ (l seen : List String), a ∈ dedupFrom seen l ↔ a ∈ l ∧ a ∉ seen := by
  intro l
  induction l with
  | nil => simp [dedupFrom]
  | cons x xs ih =>
    intro seen
    simp only [dedupFrom]
    by_cases h : seen.contains x
    · rw [if_pos h, ih seen]
      have hx : x ∈ seen := List.elem_iff.mp h
      simp only [List.mem_cons]
      constructor
      · exact fun ⟨h1, h2⟩ => ⟨Or.inr h1, h2⟩
      · rintro ⟨h1 | h1, h2⟩
        · exact absurd (h1 ▸ hx) h2
        · exact ⟨h1, h2⟩
    · rw [if_neg h]
      have hx : x ∉ seen := fun hc => h (List.elem_iff.mpr hc)
      simp only [List.mem_cons, ih (x :: seen), List.mem_cons, not_or]
      constructor
      · rintro (h1 | ⟨h1, h2, h3⟩)
        · exact ⟨Or.inl h1, h1 ▸ hx⟩
        · exact ⟨Or.inr h1, h3⟩
      · rintro ⟨h1 | h1, h2⟩
        · exact Or.inl h1
        · by_cases hax : a = x
          · exact Or.inl hax
          · exact Or.inr ⟨h1, hax, h2⟩

theorem nodup_dedupFrom :
    ∀ (l seen : List String), (dedupFrom seen l).Nodup := by
  intro l
  induction l with
  | nil =>
    intro seen
    simp [dedupFrom]
  | cons x xs ih =>
    intro seen
    simp only [dedupFrom]
    by_cases h : seen.contains x
    · rw [if_pos h]
      exact ih seen
    · rw [if_neg h, List.nodup_cons]
      refine ⟨fun hc => ?_, ih (x :: seen)⟩
      exact ((mem_dedupFrom x xs (x :: seen)).mp hc).2 (List.mem_cons_self x seen)

theorem mem_dedup (a : String) (l : List String) : a ∈ dedup l ↔ a ∈ l := by
  rw [dedup, mem_dedupFrom]
  simp

theorem nodup_dedup (l : List String) : (dedup l).Nodup :=
  nodup_dedupFrom l []

/-! Path lemmas: characterizing `ancestorOf` and the directory-listing
helpers. -/

theorem ancestorOf_iff :
    ∀ p q : Path, ancestorOf p q = true ↔ ∃ s, q = p ++ s ∧ s ≠ [] := by
  intro p
  induction p with
  | nil =>
    intro q
    cases q with
    | nil =>
      simp only [ancestorOf, Bool.false_eq_true, false_iff, not_exists]
      rintro s ⟨h1, h2⟩
      exact h2 h1.symm
    | cons b bs =>
      simp only [ancestorOf, true_iff]
      exact ⟨b :: bs, rfl, List.cons_ne_nil b bs⟩
  | cons a as ih =>
    intro q
    cases q with
    | nil =>
      simp only [ancestorOf, Bool.false_eq_true, false_iff, not_exists]
      rintro s ⟨h1, _⟩
      simp at h1
    | cons b bs =>
      simp only [ancestorOf, Bool.and_eq_true, beq_iff_eq, ih bs]
      constructor
      · rintro ⟨hab, s, h1, h2⟩
        exact ⟨s, by simp [hab, h1], h2⟩
      · rintro ⟨s, h1, h2⟩
        rw [List.cons_append] at h1
        injection h1 with hb hbs
        exact ⟨hb.symm, s, hbs, h2⟩

theorem ancestorOf_append_cons (d : Path) (n : String) (t : List String) :
    ancestorOf d (d ++ n :: t) = true :=
  (ancestorOf_iff d (d ++ n :: t)).mpr ⟨n :: t, rfl, List.cons_ne_nil n t⟩

theorem childNameOfDir_eq_some (d r : Path) (n : String) :
    childNameOfDir d r = some n ↔ ∃ t, r = d ++ n :: t := by
  rw [childNameOfDir]
  by_cases h : ancestorOf d r
  · rw [if_pos h]
    obtain ⟨s, hs, hne⟩ := (ancestorOf_iff d r).mp h
    subst hs
    rw [List.drop_left]
    cases s with
    | nil => exact absurd rfl hne
    | cons x xs =>
      simp only [List.head?_cons, Option.some.injEq]
      constructor
      · intro h1
        exact ⟨xs, by rw [h1]⟩
      · rintro ⟨t, ht⟩
        have h2 := List.append_cancel_left ht
        injection h2 with h3 h4
  · rw [if_neg h]
    constructor
    · intro h1
      exact Option.noConfusion h1
    · rintro ⟨t, rfl⟩
      exact absurd (ancestorOf_append_cons d n t) h

theorem ancestorOf_weaken (d : Path) (n : String) (r : Path)
    (h : ancestorOf (d ++ [n]) r = true) : ancestorOf d r = true := by
  obtain ⟨u, hu, hune⟩ := (ancestorOf_iff _ _).mp h
  refine (ancestorOf_iff _ _).mpr ⟨n :: u, ?_, by simp⟩
  rw [hu, List.append_assoc, List.singleton_append]

theorem childNameOfFile_eq_some (d r : Path) (n : String) :
    childNameOfFile d r = some n ↔ ancestorOf (d ++ [n]) r = true := by
  rw [childNameOfFile]
  by_cases h : ancestorOf d r
  · rw [if_pos h]
    obtain ⟨s, hs, hne⟩ := (ancestorOf_iff d r).mp h
    subst hs
    rw [List.drop_left, ancestorOf_iff]
    cases s with
    | nil => exact absurd rfl hne
    | cons x t =>
      cases t with
      | nil =>
        constructor
        · intro h1
          exact Option.noConfusion h1
        · rintro ⟨u, hu, hune⟩
          rw [List.append_assoc, List.singleton_append] at hu
          have h2 := List.append_cancel_left hu
          injection h2 with h3 h4
          exact absurd h4.symm hune
      | cons y t' =>
        constructor
        · intro h1
          injection h1 with h2
          subst h2
          exact ⟨y :: t', by rw [List.append_assoc, List.singleton_append], by simp⟩
        · rintro ⟨u, hu, hune⟩
          rw [List.append_assoc, List.singleton_append] at hu
          have h2 := List.append_cancel_left hu
          injection h2 with h3 h4
          rw [h3]
  · rw [if_neg h]
    constructor
    · intro h1
      exact Option.noConfusion h1
    · intro h2
      exact absurd (ancestorOf_weaken d n r h2) h

theorem dirEntry_iff (d : Path) (n : String) (r : Path) :
    (r == d ++ [n] || ancestorOf (d ++ [n]) r) = true ↔
      childNameOfDir d r = some n := by
  rw [Bool.or_eq_true, beq_iff_eq, ancestorOf_iff, childNameOfDir_eq_some]
  constructor
  · rintro (rfl | ⟨u, rfl, hune⟩)
    · exact ⟨[], rfl⟩
    · exact ⟨u, by rw [List.append_assoc, List.singleton_append]⟩
  · rintro ⟨t, rfl⟩
    cases t with
    | nil => exact Or.inl rfl
    | cons y t' =>
      exact Or.inr ⟨y :: t',
        by rw [List.append_assoc, List.singleton_append], by simp⟩

theorem mem_childDirNames (fs : FS) (d : Path) (n : String) :
    n ∈ childDirNames fs d ↔ fs.dirExists (d ++ [n]) = true := by
  rw [childDirNames, mem_dedup, List.mem_append, FS.dirExists, Bool.or_eq_true,
    List.any_eq_true, List.any_eq_true]
  simp only [List.mem_filterMap]
  constructor
  · rintro (⟨r, hr, hcn⟩ | ⟨e, he, hcn⟩)
    · exact Or.inl ⟨r, hr, (dirEntry_iff d n r).mpr hcn⟩
    · exact Or.inr ⟨e, he, (childNameOfFile_eq_some d e.1 n).mp hcn⟩
  · rintro (⟨r, hr, hb⟩ | ⟨e, he, hb⟩)
    · exact Or.inl ⟨r, hr, (dirEntry_iff d n r).mp hb⟩
    · exact Or.inr ⟨e, he, (childNameOfFile_eq_some d e.1 n).mpr hb⟩

theorem dirExists_of_child (fs : FS) (d : Path) (n : String)
    (h : fs.dirExists (d ++ [n]) = true) : fs.dirExists d = true := by
  rw [FS.dirExists, Bool.or_eq_true, List.any_eq_true, List.any_eq_true] at h ⊢
  rcases h with ⟨r, hr, hb⟩ | ⟨e, he, hb⟩
  · refine Or.inl ⟨r, hr, ?_⟩
    rw [Bool.or_eq_true, beq_iff_eq] at hb
    rw [Bool.or_eq_true]
    rcases hb with rfl | hb
    · exact Or.inr (ancestorOf_append_cons d n [])
    · exact Or.inr (ancestorOf_weaken d n r hb)
  · exact Or.inr ⟨e, he, ancestorOf_weaken d n e.1 hb⟩

theorem mem_listVersions (cfg : CacheConfig) (fs : FS) (key w : String)
    (base : Path) (hb : cfg.cache_folder = some base) :
    w ∈ listVersions cfg fs key ↔
      fs.dirExists (base ++ [key, w]) = true ∧
        fs.fileExists (base ++ [key, w, key ++ ".json"]) = true := by
  rw [listVersions, hb]
  by_cases hg : fs.pathExists (base ++ [key]) = true
  · simp only [hg, Bool.not_true, Bool.false_eq_true, if_false]
    rw [mem_sortDesc, List.mem_filter, mem_childDirNames]
    have e1 : (base ++ [key]) ++ [w] = base ++ [key, w] := by
      rw [List.append_assoc]
      rfl
    have e2 : (base ++ [key]) ++ [w, key ++ ".json"] =
        base ++ [key, w, key ++ ".json"] := by
      rw [List.append_assoc]
      rfl
    rw [e1, e2]
  · have hg' : fs.pathExists (base ++ [key]) = false := by
      cases hq : fs.pathExists (base ++ [key])
      · rfl
      · exact absurd hq hg
    simp only [hg', Bool.not_false, if_true]
    constructor
    · intro hw
      exact absurd hw (List.not_mem_nil w)
    · rintro ⟨h1, _⟩
      exfalso
      have e1 : base ++ [key, w] = (base ++ [key]) ++ [w] := by
        rw [List.append_assoc]
        rfl
      rw [e1] at h1
      have h2 := dirExists_of_child fs (base ++ [key]) w h1
      rw [FS.pathExists, h2, Bool.or_true] at hg'
      exact Bool.noConfusion hg'

/-! Filesystem-update lemmas. -/

theorem lookup_filter_ne (p q : Path) (l : List (Path × FileContent))
    (h : (q == p) = false) :
    (l.filter (fun e => !(e.1 == p))).lookup q = l.lookup q := by
  induction l with
  | nil => rfl
  | cons e es ih =>
    by_cases he : (e.1 == p) = true
    · have hqe : (q == e.1) = false := by
        rw [beq_iff_eq] at he
        rw [he]
        exact h
      rw [List.filter_cons_of_neg (by simp [he]), List.lookup_cons, hqe]
      exact ih
    · have he' : (e.1 == p) = false := by
        cases hx : e.1 == p
        · rfl
        · exact absurd hx he
      rw [List.filter_cons_of_pos (by simp [he']), List.lookup_cons,
        List.lookup_cons]
      cases hq : q == e.1
      · exact ih
      · rfl

theorem readFile?_writeFile (fs : FS) (p q : Path) (c : FileContent) :
    (fs.writeFile p c).readFile? q =
      if q == p then some c else fs.readFile? q := by
  rw [FS.writeFile, FS.readFile?, FS.readFile?]
  cases h : q == p
  · simp only [Bool.false_eq_true, if_false, List.lookup_cons, h]
    exact lookup_filter_ne p q fs.files h
  · simp only [if_true, List.lookup_cons, h]

theorem readFile?_writeFile_self (fs : FS) (p : Path) (c : FileContent) :
    (fs.writeFile p c).readFile? p = some c := by
  rw [readFile?_writeFile, if_pos (by simp)]

theorem fileExists_writeFile (fs : FS) (p q : Path) (c : FileContent) :
    (fs.writeFile p c).fileExists q = (q == p || fs.fileExists q) := by
  rw [FS.fileExists, readFile?_writeFile, FS.fileExists]
  cases h : q == p
  · simp
  · simp

theorem any_filter_entry (p : Path) (c : FileContent)
    (l : List (Path × FileContent)) (g : Path → Bool) :
    ((p, c) :: l.filter (fun e => !(e.1 == p))).any (fun e => g e.1) =
      (g p || l.any (fun e => g e.1)) := by
  induction l with
  | nil => simp
  | cons e es ih =>
    by_cases he : (e.1 == p) = true
    · rw [List.filter_cons_of_neg (by simp [he])] at *
      rw [List.any_cons, List.any_cons]
      rw [beq_iff_eq] at he
      rw [he]
      rw [List.any_cons] at ih
      cases hgp : g p
      · simpa [hgp] using ih
      · simp [hgp]
    · have he' : (e.1 == p) = false := by
        cases hx : e.1 == p
        · rfl
        · exact absurd hx he
      rw [List.filter_cons_of_pos (by simp [he'])]
      rw [List.any_cons] at *
      rw [List.any_cons]
      cases hgp : g p <;> cases hge : g e.1 <;>
        simp [hgp, hge] at ih ⊢ <;> exact ih

theorem dirExists_writeFile (fs : FS) (p q : Path) (c : FileContent) :
    (fs.writeFile p c).dirExists q = (ancestorOf q p || fs.dirExists q) := by
  rw [FS.writeFile, FS.dirExists, FS.dirExists]
  simp only []
  rw [any_filter_entry p c fs.files (fun r => ancestorOf q r)]
  cases h1 : fs.dirs.any (fun d => d == q || ancestorOf q d) <;>
    cases h2 : ancestorOf q p <;>
    cases h3 : fs.files.any (fun e => ancestorOf q e.1) <;>
    simp [h1, h2, h3]

theorem dirExists_mkdirP (fs : FS) (p q : Path) :
    (fs.mkdirP p).dirExists q =
      ((p == q || ancestorOf q p) || fs.dirExists q) := by
  rw [FS.mkdirP, FS.dirExists, FS.dirExists]
  simp only [List.any_cons]
  cases h1 : p == q <;> cases h2 : ancestorOf q p <;>
    cases h3 : fs.dirs.any (fun d => d == q || ancestorOf q d) <;>
    cases h4 : fs.files.any (fun e => ancestorOf q e.1) <;>
    simp [h1, h2, h3, h4]

theorem readFile?_mkdirP (fs : FS) (p q : Path) :
    (fs.mkdirP p).readFile? q = fs.readFile? q := rfl

theorem fileExists_mkdirP (fs : FS) (p q : Path) :
    (fs.mkdirP p).fileExists q = fs.fileExists q := rfl

/-! Path-shape helpers for the versioned cache layout. -/

theorem dropLast_versioned (base : Path) (a b c : String) :
    (base ++ [a, b, c]).dropLast = base ++ [a, b] := by
  have e : base ++ [a, b, c] = (base ++ [a, b]) ++ [c] := by
    rw [List.append_assoc]
    rfl
  rw [e, List.dropLast_concat]

theorem parentName_versioned (base : Path) (a b c : String) :
    parentName (base ++ [a, b, c]) = b := by
  rw [parentName, dropLast_versioned]
  have e : base ++ [a, b] = (base ++ [a]) ++ [b] := by
    rw [List.append_assoc]
    rfl
  rw [e, List.getLastD_concat]

/-! Behavior of `save` and `load` in the default (versioned, enabled,
configured) setting. -/

theorem getCachePath_create (cfg : CacheConfig) (key : String)
    (ver0 : Option String) (genTs : String) (base : Path)
    (hb : cfg.cache_folder = some base) (hts : genTs ≠ "") :
    getCachePath cfg key ver0 true genTs =
      some (base ++ [key, genTs, key ++ ".json"]) := by
  rw [getCachePath, hb]
  simp only [Bool.true_or, if_true, if_neg hts]

theorem save_versioned (cfg : CacheConfig) (fs : FS) (key : String) (j : Json)
    (ver0 : Option String) (md : Option (List (String × Json))) (clk : Clock)
    (base : Path) (hb : cfg.cache_folder = some base) (he : cfg.enabled = true)
    (hd : cfg.default_versioning = true) (hts : clk.verTs ≠ "") :
    save cfg fs key (.json j) ver0 md clk =
      (some clk.verTs,
        (fs.mkdirP (base ++ [key, clk.verTs])).writeFile
          (base ++ [key, clk.verTs, key ++ ".json"])
          (.jsonFile (envelopeJson key clk.isoNow clk.verTs (md.getD []) j))) := by
  rw [save, if_neg (by simp [he, hb])]
  rw [saveBody, getCachePath_create cfg key ver0 clk.verTs base hb hts]
  simp only [hd, if_true, parentName_versioned, dropLast_versioned]

theorem load_specific (cfg : CacheConfig) (fs : FS) (key v now : String)
    (base : Path) (hb : cfg.cache_folder = some base) (he : cfg.enabled = true)
    (hlatest : v ≠ "latest") (hempty : v ≠ "") :
    load cfg fs key (some v) now =
      (match fs.readFile? (base ++ [key, v, key ++ ".json"]) with
      | some (.jsonFile j) => some j
      | some .corrupt => none
      | none => none) := by
  rw [load, if_neg (by simp [he, hb])]
  rw [if_neg (by simp [hlatest])]
  have hpath : getCachePath cfg key (some v) false now =
      some (base ++ [key, v, key ++ ".json"]) := by
    rw [getCachePath, hb]
    simp [hempty]
  rw [loadAt, hpath]

theorem loadAt_specific (cfg : CacheConfig) (fs : FS) (key v now : String)
    (base : Path) (hb : cfg.cache_folder = some base) (hempty : v ≠ "") :
    loadAt cfg fs key (some v) now =
      (match fs.readFile? (base ++ [key, v, key ++ ".json"]) with
      | some (.jsonFile j) => some j
      | some .corrupt => none
      | none => none) := by
  have hpath : getCachePath cfg key (some v) false now =
      some (base ++ [key, v, key ++ ".json"]) := by
    rw [getCachePath, hb]
    simp [hempty]
  rw [loadAt, hpath]

theorem append2_inj (base : Path) (a w ts : String)
    (h : base ++ [a, w] = base ++ [a, ts]) : w = ts := by
  have h2 := List.append_cancel_left h
  injection h2 with h3 h4
  injection h4 with h5 h6

theorem append3_inj_mid (base : Path) (a w f ts g : String)
    (h : base ++ [a, w, f] = base ++ [a, ts, g]) : w = ts := by
  have h2 := List.append_cancel_left h
  injection h2 with h3 h4
  injection h4 with h5 h6

theorem ancestorOf_append2_append3 (base : Path) (a w ts f : String) :
    ancestorOf (base ++ [a, w]) (base ++ [a, ts, f]) = true ↔ w = ts := by
  rw [ancestorOf_iff]
  constructor
  · rintro ⟨s, hs, hne⟩
    rw [List.append_assoc] at hs
    have h2 := List.append_cancel_left hs
    injection h2 with h3 h4
    injection h4 with h5 h6
    exact h5.symm
  · rintro rfl
    refine ⟨[f], ?_, by simp⟩
    rw [List.append_assoc]
    rfl

theorem ancestorOf_append2_append2 (base : Path) (a w ts : String) :
    ancestorOf (base ++ [a, w]) (base ++ [a, ts]) = false := by
  cases h : ancestorOf (base ++ [a, w]) (base ++ [a, ts])
  · rfl
  · exfalso
    obtain ⟨s, hs, hne⟩ := (ancestorOf_iff _ _).mp h
    rw [List.append_assoc] at hs
    have h2 := List.append_cancel_left hs
    injection h2 with h3 h4
    injection h4 with h5 h6
    exact hne h6.symm

theorem valid_after_save (cfg : CacheConfig) (fs : FS) (key w : String)
    (j : Json) (md : Option (List (String × Json))) (clk : Clock)
    (base : Path) (hb : cfg.cache_folder = some base) (he : cfg.enabled = true)
    (hd : cfg.default_versioning = true) (hts : clk.verTs ≠ "") :
    w ∈ listVersions cfg (save cfg fs key (.json j) none md clk).2 key ↔
      w = clk.verTs ∨ w ∈ listVersions cfg fs key := by
  rw [save_versioned cfg fs key j none md clk base hb he hd hts]
  rw [mem_listVersions cfg _ key w base hb, mem_listVersions cfg fs key w base hb]
  rw [fileExists_writeFile, fileExists_mkdirP, dirExists_writeFile,
    dirExists_mkdirP]
  by_cases hw : w = clk.verTs
  · subst hw
    simp
  · have h1 : ((base ++ [key, w, key ++ ".json"]) ==
        (base ++ [key, clk.verTs, key ++ ".json"])) = false := by
      rw [beq_eq_false_iff_ne]
      intro hc
      exact hw (append3_inj_mid base key w (key ++ ".json") clk.verTs
        (key ++ ".json") hc)
    have h2 : ancestorOf (base ++ [key, w])
        (base ++ [key, clk.verTs, key ++ ".json"]) = false := by
      cases hx : ancestorOf (base ++ [key, w])
          (base ++ [key, clk.verTs, key ++ ".json"])
      · rfl
      · exact absurd ((ancestorOf_append2_append3 base key w clk.verTs
          (key ++ ".json")).mp hx) hw
    have h3 : ((base ++ [key, clk.verTs]) == (base ++ [key, w])) = false := by
      rw [beq_eq_false_iff_ne]
      intro hc
      exact hw (append2_inj base key clk.verTs w hc).symm
    have h4 : ancestorOf (base ++ [key, w]) (base ++ [key, clk.verTs]) =
        false := ancestorOf_append2_append2 base key w clk.verTs
    rw [h1, h2, h3, h4]
    simp [hw]

theorem listVersions_chain (cfg : CacheConfig) (fs : FS) (key : String) :
    List.Chain' (fun a b => a ≥ b) (listVersions cfg fs key) := by
  cases hcf : cfg.cache_folder with
  | none =>
    rw [listVersions, hcf]
    simp
  | some base =>
    rw [listVersions, hcf]
    by_cases hg : fs.pathExists (base ++ [key]) = true
    · simp only [hg, Bool.not_true, Bool.false_eq_true, if_false]
      exact chain_sortDesc _
    · have hg2 : fs.pathExists (base ++ [key]) = false := by
        cases hq : fs.pathExists (base ++ [key])
        · rfl
        · exact absurd hq hg
      simp only [hg2, Bool.not_false, if_true]
      simp

theorem save_load_roundtrip (cfg : CacheConfig) (fs : FS) (key : String)
    (j : Json) (md : Option (List (String × Json))) (clk : Clock)
    (now : String) (base : Path) (hb : cfg.cache_folder = some base)
    (he : cfg.enabled = true) (hd : cfg.default_versioning = true)
    (hts1 : clk.verTs ≠ "") (hts2 : clk.verTs ≠ "latest") :
    (save cfg fs key (.json j) none md clk).1 = some clk.verTs ∧
      load cfg (save cfg fs key (.json j) none md clk).2 key
          (save cfg fs key (.json j) none md clk).1 now =
        some (envelopeJson key clk.isoNow clk.verTs (md.getD []) j) := by
  rw [save_versioned cfg fs key j none md clk base hb he hd hts1]
  refine ⟨rfl, ?_⟩
  rw [load_specific cfg _ key clk.verTs now base hb he hts2 hts1]
  rw [readFile?_writeFile_self]

/-! The claims. -/

/-- Claim C1: with the cache configured and enabled in default
versioned mode, saving `data` with `metadata` under a key and then
loading that key at the version identifier returned by `save` yields
an envelope whose `data` field equals the saved data and whose
`metadata` field equals the saved metadata. -/
theorem cache_c1_roundtrip (cfg : CacheConfig) (fs : FS) (key : String)
    (j : Json) (md : List (String × Json)) (clk : Clock) (now : String)
    (base : Path) (hb : cfg.cache_folder = some base)
    (he : cfg.enabled = true) (hd : cfg.default_versioning = true)
    (hts1 : clk.verTs ≠ "") (hts2 : clk.verTs ≠ "latest") :
    (load cfg (save cfg fs key (.json j) none (some md) clk).2 key
        (save cfg fs key (.json j) none (some md) clk).1 now).bind
        (fun env => env.getField "data") = some j ∧
      (load cfg (save cfg fs key (.json j) none (some md) clk).2 key
        (save cfg fs key (.json j) none (some md) clk).1 now).bind
        (fun env => env.getField "metadata") = some (.obj md) := by
  obtain ⟨h1, h2⟩ :=
    save_load_roundtrip cfg fs key j (some md) clk now base hb he hd hts1 hts2
  rw [h2]
  exact ⟨rfl, rfl⟩

theorem cache_c1_roundtrip_witness :
    (load cfgW (save cfgW fs0 "k" (.json dat1) none
        (some [("a", Json.null)]) clkA).2 "k"
        (save cfgW fs0 "k" (.json dat1) none
          (some [("a", Json.null)]) clkA).1 "x").bind
        (fun env => env.getField "data") = some dat1 ∧
      (load cfgW (save cfgW fs0 "k" (.json dat1) none
        (some [("a", Json.null)]) clkA).2 "k"
        (save cfgW fs0 "k" (.json dat1) none
          (some [("a", Json.null)]) clkA).1 "x").bind
        (fun env => env.getField "metadata") =
        some (.obj [("a", Json.null)]) :=
  cache_c1_roundtrip cfgW fs0 "k" dat1 [("a", Json.null)] clkA "x" baseW
    rfl rfl rfl (by decide) (by decide)

/-- Claim C9: for every successful save (non-`None` return), the
version identifier returned by `save` equals the `version` field
stored inside the written envelope. -/
theorem cache_c9_version_field (cfg : CacheConfig) (fs : FS) (key : String)
    (j : Json) (ver0 : Option String) (md : Option (List (String × Json)))
    (clk : Clock) (ver : String) (fs2 : FS) (p : Path)
    (hs : save cfg fs key (.json j) ver0 md clk = (some ver, fs2))
    (hp : getCachePath cfg key ver0 true clk.verTs = some p) :
    fs2.readFile? p =
        some (.jsonFile (envelopeJson key clk.isoNow ver (md.getD []) j)) ∧
      (envelopeJson key clk.isoNow ver (md.getD []) j).getField "version" =
        some (.str ver) := by
  obtain ⟨cf, en, dv⟩ := cfg
  cases cf with
  | none => simp [getCachePath] at hp
  | some base =>
    cases en with
    | false => simp [save] at hs
    | true =>
      rw [save, if_neg (by simp)] at hs
      have hbody : saveBody ⟨some base, true, dv⟩ fs key (.json j) ver0 md clk =
          .ok (some (if dv then parentName p else clk.verTs2),
            (fs.mkdirP p.dropLast).writeFile p
              (.jsonFile (envelopeJson key clk.isoNow
                (if dv then parentName p else clk.verTs2) (md.getD []) j))) := by
        rw [saveBody, hp]
      rw [hbody] at hs
      simp only [Prod.mk.injEq, Option.some.injEq] at hs
      obtain ⟨h1, h2⟩ := hs
      subst h1
      subst h2
      exact ⟨readFile?_writeFile_self _ _ _, rfl⟩

theorem cache_c9_version_field_witness :
    (save cfgW fs0 "k" (.json dat1) none none clkA).2.readFile?
        (baseW ++ ["k", clkA.verTs, "k" ++ ".json"]) =
        some (.jsonFile (envelopeJson "k" clkA.isoNow "20240101_000001"
          ((none : Option (List (String × Json))).getD []) dat1)) ∧
      (envelopeJson "k" clkA.isoNow "20240101_000001"
        ((none : Option (List (String × Json))).getD []) dat1).getField
          "version" = some (.str "20240101_000001") :=
  cache_c9_version_field cfgW fs0 "k" dat1 none none clkA
    "20240101_000001" (save cfgW fs0 "k" (.json dat1) none none clkA).2
    (baseW ++ ["k", clkA.verTs, "k" ++ ".json"]) rfl rfl

/-- Claim C10: a successful save called with `metadata=None` stores
the `metadata` field as the empty mapping, so a subsequent load of
that entry returns an envelope whose `metadata` equals `{}` rather
than `None`. -/
theorem cache_c10_metadata_empty (cfg : CacheConfig) (fs : FS) (key : String)
    (j : Json) (clk : Clock) (now : String) (base : Path)
    (hb : cfg.cache_folder = some base) (he : cfg.enabled = true)
    (hd : cfg.default_versioning = true)
    (hts1 : clk.verTs ≠ "") (hts2 : clk.verTs ≠ "latest") :
    (load cfg (save cfg fs key (.json j) none none clk).2 key
        (save cfg fs key (.json j) none none clk).1 now).bind
        (fun env => env.getField "metadata") = some (.obj []) := by
  obtain ⟨h1, h2⟩ :=
    save_load_roundtrip cfg fs key j none clk now base hb he hd hts1 hts2
  rw [h2]
  rfl

theorem cache_c10_metadata_empty_witness :
    (load cfgW (save cfgW fs0 "k" (.json dat1) none none clkA).2 "k"
        (save cfgW fs0 "k" (.json dat1) none none clkA).1 "x").bind
        (fun env => env.getField "metadata") = some (.obj []) :=
  cache_c10_metadata_empty cfgW fs0 "k" dat1 clkA "x" baseW rfl rfl rfl
    (by decide) (by decide)

/-- Claim C2: with the cache configured, enabled and in default
versioned mode: a key with zero valid versions loads `None` at
`"latest"`; when versions exist, `load(key, "latest")` loads the
lexicographically maximum listed version; and after a further save
whose generated timestamp exceeds every existing version,
`load(key, "latest")` returns the envelope of that last save. -/
theorem cache_c2_latest (cfg : CacheConfig) (fs : FS) (key : String)
    (j : Json) (md : Option (List (String × Json))) (clk : Clock)
    (now : String) (base : Path)
    (hb : cfg.cache_folder = some base) (he : cfg.enabled = true)
    (hd : cfg.default_versioning = true) (hts1 : clk.verTs ≠ "")
    (hall : ∀ x ∈ listVersions cfg fs key, x < clk.verTs) :
    (listVersions cfg fs key = [] →
        load cfg fs key (some "latest") now = none) ∧
      (∀ v rest, listVersions cfg fs key = v :: rest →
        (∀ w ∈ listVersions cfg fs key, w ≤ v) ∧
          load cfg fs key (some "latest") now =
            loadAt cfg fs key (some v) now) ∧
      load cfg (save cfg fs key (.json j) none md clk).2 key
          (some "latest") now =
        some (envelopeJson key clk.isoNow clk.verTs (md.getD []) j) := by
  refine ⟨?_, ?_, ?_⟩
  · intro hemp
    rw [load, if_neg (by simp [he, hb]), if_pos rfl, hemp]
  · intro v rest hcons
    constructor
    · intro w hw
      have hchain := listVersions_chain cfg fs key
      rw [hcons] at hchain hw
      exact head_ge_of_chain v rest w hchain hw
    · rw [load, if_neg (by simp [he, hb]), if_pos rfl, hcons]
  · have hmem : clk.verTs ∈
        listVersions cfg (save cfg fs key (.json j) none md clk).2 key :=
      (valid_after_save cfg fs key clk.verTs j md clk base hb he hd
        hts1).mpr (Or.inl rfl)
    cases hL : listVersions cfg (save cfg fs key (.json j) none md clk).2 key
      with
    | nil =>
      rw [hL] at hmem
      exact absurd hmem (List.not_mem_nil _)
    | cons hd0 tl =>
      have hhd : hd0 = clk.verTs := by
        have hhd_mem : hd0 ∈
            listVersions cfg (save cfg fs key (.json j) none md clk).2 key := by
          rw [hL]
          exact List.mem_cons_self hd0 tl
        rcases (valid_after_save cfg fs key hd0 j md clk base hb he hd
          hts1).mp hhd_mem with h | h
        · exact h
        · have hts_le : clk.verTs ≤ hd0 := by
            have hchain := listVersions_chain cfg
              (save cfg fs key (.json j) none md clk).2 key
            rw [hL] at hchain hmem
            exact head_ge_of_chain hd0 tl clk.verTs hchain hmem
          exact absurd (lt_of_le_of_lt hts_le (hall hd0 h))
            (lt_irrefl clk.verTs)
      rw [hhd] at hL
      rw [load, if_neg (by simp [he, hb]), if_pos rfl, hL]
      show loadAt cfg (save cfg fs key (PyVal.json j) none md clk).2 key
        (some clk.verTs) now =
          some (envelopeJson key clk.isoNow clk.verTs (md.getD []) j)
      rw [loadAt_specific cfg _ key clk.verTs now base hb hts1]
      have h2 : (save cfg fs key (.json j) none md clk).2 =
          (fs.mkdirP (base ++ [key, clk.verTs])).writeFile
            (base ++ [key, clk.verTs, key ++ ".json"])
            (.jsonFile (envelopeJson key clk.isoNow clk.verTs (md.getD []) j)) := by
        rw [save_versioned cfg fs key j none md clk base hb he hd hts1]
      rw [h2, readFile?_writeFile_self]

theorem cache_c2_latest_witness :
    load cfgW fs0 "k" (some "latest") "x" = none ∧
      load cfgW (save cfgW fs0 "k" (.json dat1) none none clkA).2 "k"
          (some "latest") "x" =
        some (envelopeJson "k" clkA.isoNow clkA.verTs
          ((none : Option (List (String × Json))).getD []) dat1) := by
  have h := cache_c2_latest cfgW fs0 "k" dat1 none clkA "x" baseW rfl rfl rfl
    (by decide)
    (by
      intro x hx
      rw [show listVersions cfgW fs0 "k" = [] from rfl] at hx
      exact absurd hx (List.not_mem_nil x))
  exact ⟨h.1 rfl, h.2.2⟩

/-- Claim C3 (evaluation at the failing input): `save` called with an
explicit `version="v1"` ignores it.  Because `save` passes
`create_version=True` to `_get_cache_path`, the caller's version is
replaced by a freshly generated timestamp: the envelope is written
under the timestamp directory, nothing is written under `v1`, the
timestamp is returned, and a later `load` at `v1` finds nothing. -/
theorem cache_c3_explicit_version_ignored :
    (save cfgW fs0 "k" (.json dat1) (some "v1") none clkA).1 =
        some "20240101_000001" ∧
      (save cfgW fs0 "k" (.json dat1) (some "v1") none clkA).2.fileExists
        ["cache", "k", "20240101_000001", "k.json"] = true ∧
      (save cfgW fs0 "k" (.json dat1) (some "v1") none clkA).2.fileExists
        ["cache", "k", "v1", "k.json"] = false ∧
      load cfgW (save cfgW fs0 "k" (.json dat1) (some "v1") none clkA).2 "k"
        (some "v1") "x" = none :=
  ⟨rfl, rfl, rfl, rfl⟩

/-- Claim C4 (evaluation at the failing input): in non-versioned mode
(`default_versioning=False`) two successive saves of the same key do
not overwrite one file at `<cache_folder>/<key>.json` — `save` always
passes `create_version=True`, so both saves write fresh timestamped
version files, leaving two files and never touching the fixed path. -/
theorem cache_c4_nonversioned_two_files :
    (save cfgNV (save cfgNV fs0 "k" (.json dat1) none none clkA).2 "k"
        (.json dat2) none none clkB).2.fileExists ["cache", "k.json"] =
        false ∧
      (save cfgNV (save cfgNV fs0 "k" (.json dat1) none none clkA).2 "k"
        (.json dat2) none none clkB).2.fileExists
        ["cache", "k", "20240101_000001", "k.json"] = true ∧
      (save cfgNV (save cfgNV fs0 "k" (.json dat1) none none clkA).2 "k"
        (.json dat2) none none clkB).2.fileExists
        ["cache", "k", "20240101_000002", "k.json"] = true ∧
      (save cfgNV (save cfgNV fs0 "k" (.json dat1) none none clkA).2 "k"
        (.json dat2) none none clkB).2.files.length = 2 :=
  ⟨rfl, rfl, rfl, rfl⟩

/-- Claim C5 counterexample: a save whose payload is not
JSON-serializable does not propagate a caller-visible error.  The
`TypeError` is raised inside the `try:` block (the body errors), and
the blanket `except Exception` absorbs it into a `None` return. -/
theorem cache_c5_counterexample :
    isErr (saveBody cfgW fs0 "k" PyVal.notSerializable none none clkA) =
        true ∧
      (save cfgW fs0 "k" PyVal.notSerializable none none clkA).1 = none :=
  ⟨rfl, rfl⟩

/-- Claim C5 (amended): with the cache configured, a serialization
failure in `save` is caught like any other failure and surfaced as a
`None` return — the exception raised inside the `try:` body never
escapes (though the version directory and a partial file may already
have been created). -/
theorem cache_c5_serialization_absorbed (cfg : CacheConfig) (fs : FS)
    (key : String) (ver0 : Option String)
    (md : Option (List (String × Json))) (clk : Clock) (base : Path)
    (hb : cfg.cache_folder = some base) :
    (save cfg fs key PyVal.notSerializable ver0 md clk).1 = none ∧
      isErr (saveBody cfg fs key PyVal.notSerializable ver0 md clk) =
        true := by
  obtain ⟨cf, en, dv⟩ := cfg
  have hcf : cf = some base := hb
  subst hcf
  have hp : ∃ p, getCachePath ⟨some base, en, dv⟩ key ver0 true clk.verTs =
      some p := by
    rw [getCachePath]
    by_cases hts : clk.verTs = ""
    · exact ⟨base ++ [key ++ ".json"], by simp [hts]⟩
    · exact ⟨base ++ [key, clk.verTs, key ++ ".json"], by simp [hts]⟩
  obtain ⟨p, hp⟩ := hp
  have herr : saveBody ⟨some base, en, dv⟩ fs key PyVal.notSerializable
      ver0 md clk =
      .error ("TypeError: not JSON serializable",
        (fs.mkdirP p.dropLast).writeFile p .corrupt) := by
    rw [saveBody, hp]
  refine ⟨?_, by rw [herr]; rfl⟩
  cases en with
  | false => rfl
  | true =>
    rw [save, if_neg (by simp), herr]

theorem cache_c5_serialization_absorbed_witness :
    (save cfgW fs0 "k" PyVal.notSerializable (some "v1") none clkA).1 =
        none ∧
      isErr (saveBody cfgW fs0 "k" PyVal.notSerializable (some "v1") none
        clkA) = true :=
  cache_c5_serialization_absorbed cfgW fs0 "k" (some "v1") none clkA
    baseW rfl

/-- Claim C6 counterexample: with `enabled=False` but a cache folder
set, the operations do not all behave as in the unconfigured case:
`list_versions` enumerates storage and returns the stored version
(the unconfigured cache returns `[]`), `list_keys` returns the stored
key, and `clear` really deletes the key's subtree. -/
theorem cache_c6_counterexample :
    listVersions cfgOff fsK "k" = ["v1"] ∧
      listVersions { cache_folder := none, enabled := false } fsK "k" =
        [] ∧
      listKeys cfgOff fsK = ["k"] ∧
      clear cfgOff fsK (some "k") none "x" = ⟨[], []⟩ :=
  ⟨rfl, rfl, rfl, rfl⟩

/-- Claim C6 (amended): when `enabled=False`, `save` returns `None`
and leaves storage untouched and `load` returns `None` for any key
and version; but `list_versions`, `list_keys` and `clear` never
consult the `enabled` flag — with a cache folder set they behave
exactly as they would with `enabled=True`. -/
theorem cache_c6_disabled (folder : Option Path) (dv : Bool) (fs : FS)
    (key : String) (ver0 : Option String)
    (md : Option (List (String × Json))) (d : PyVal) (clk : Clock)
    (now : String) (ck : Option String) :
    save ⟨folder, false, dv⟩ fs key d ver0 md clk = (none, fs) ∧
      load ⟨folder, false, dv⟩ fs key ver0 now = none ∧
      listVersions ⟨folder, false, dv⟩ fs key =
        listVersions ⟨folder, true, dv⟩ fs key ∧
      listKeys ⟨folder, false, dv⟩ fs = listKeys ⟨folder, true, dv⟩ fs ∧
      clear ⟨folder, false, dv⟩ fs ck ver0 now =
        clear ⟨folder, true, dv⟩ fs ck ver0 now :=
  ⟨rfl, rfl, rfl, rfl, rfl⟩

/-- Claim C7 (evaluation at the failing input): with
`default_versioning=True`, `load(key, None)` does not address the
non-versioned slot `<cache_folder>/<key>.json` — `_get_cache_path`
generates a fresh timestamp because `version is None` and default
versioning is on — so the load misses the existing non-versioned file
and returns `None`.  Only with `default_versioning=False` does the
same call return that file's envelope. -/
theorem cache_c7_none_version_misses :
    fsNonV.fileExists ["cache", "k.json"] = true ∧
      load cfgW fsNonV "k" none "20240101_000001" = none ∧
      load cfgNV fsNonV "k" none "20240101_000001" = some envW :=
  ⟨rfl, rfl, rfl⟩

/-- Claim C8: with the cache configured, `list_versions` returns
exactly the names of the immediate subdirectories of the key's
directory that contain the `<cache_key>.json` file — subdirectories
lacking that file are excluded — without duplicates and sorted in
lexicographically descending string order; an unconfigured cache
yields the empty sequence (in this total model enumeration cannot
raise; the code's `except` clause likewise returns `[]`). -/
theorem cache_c8_list_versions (cfg : CacheConfig) (fs : FS)
    (key : String) :
    (∀ base, cfg.cache_folder = some base →
      ∀ w, (w ∈ listVersions cfg fs key ↔
        fs.dirExists (base ++ [key, w]) = true ∧
          fs.fileExists (base ++ [key, w, key ++ ".json"]) = true)) ∧
      List.Chain' (fun a b => a ≥ b) (listVersions cfg fs key) ∧
      (listVersions cfg fs key).Nodup ∧
      (cfg.cache_folder = none → listVersions cfg fs key = []) := by
  refine ⟨?_, listVersions_chain cfg fs key, ?_, ?_⟩
  · intro base hb w
    exact mem_listVersions cfg fs key w base hb
  · cases hcf : cfg.cache_folder with
    | none =>
      rw [listVersions, hcf]
      exact List.nodup_nil
    | some base =>
      rw [listVersions, hcf]
      by_cases hg : fs.pathExists (base ++ [key]) = true
      · simp only [hg, Bool.not_true, Bool.false_eq_true, if_false]
        exact nodup_sortDesc _ (List.Nodup.filter _ (nodup_dedup _))
      · have hg2 : fs.pathExists (base ++ [key]) = false := by
          cases hq : fs.pathExists (base ++ [key])
          · rfl
          · exact absurd hq hg
        simp only [hg2, Bool.not_false, if_true]
        exact List.nodup_nil
  · intro hn
    rw [listVersions, hn]

theorem cache_c8_list_versions_witness :
    ("v1" ∈ listVersions cfgW fsK "k" ↔
        fsK.dirExists (baseW ++ ["k", "v1"]) = true ∧
          fsK.fileExists (baseW ++ ["k", "v1", "k" ++ ".json"]) = true) ∧
      List.Chain' (fun a b => a ≥ b) (listVersions cfgW fsK "k") ∧
      (listVersions cfgW fsK "k").Nodup :=
  ⟨(cache_c8_list_versions cfgW fsK "k").1 baseW rfl "v1",
    (cache_c8_list_versions cfgW fsK "k").2.1,
    (cache_c8_list_versions cfgW fsK "k").2.2.1⟩

end PbiCache
